import Mathlib

/-!
# Events dispatching channel: shallow embedding

This file embeds the type-keyed publish/subscribe channel of the repository
(class Event_ and its nested Subscription_ in Main.cpp) and proves the frozen
claims about it.

Modelling choices, all taken from the source:

* The per-type static state of Event_ (State, NextReceiverIndex,
  ReceiversContainer) is the structure Event_ E; the payload type parameter
  EventType_ becomes the Lean type parameter E.
* A receiver callback is a std function that may call back into the channel
  through the public surface (Interrupt, and Pause / Resume / Remove through a
  captured handle) and may mutate the event it receives by reference.  It is
  embedded as a list of Action_ E commands interpreted by runActions; the
  Action_.modify constructor carries an arbitrary event mutation.
* Send is instrumented to return the list of invocations it performed, each as
  the pair (identity of the invoked entry, event value passed to it).  The C++
  loop is a range-based for over the vector, which desugars to an iterator
  running to an end iterator computed once, before the loop body ever runs.
  The loop is therefore embedded as sendLoop with a step budget fixed at the
  length the container had when the loop started, reading the element at the
  current offset of the live container at every step.  Reading an offset that
  no longer holds a live element (possible only after a callback erased an
  entry, which in C++ invalidates the iterators of the running loop) is an
  invalidated access and makes the result none.
* The Assert macro of the source expands to a no-op expression outside MSVC
  debug builds, so every guarded branch is embedded exactly as its code
  behaves with the assertion compiled out.
-/

inductive EventState_ : Type where
  | Waiting : EventState_
  | Sending : EventState_
  | Interrupted : EventState_
deriving DecidableEq, Repr

inductive ReceiverState_ : Type where
  | Active : ReceiverState_
  | Paused : ReceiverState_
deriving DecidableEq, Repr

/-- One callback command: a call back into the channel surface or a mutation
of the event received by reference. -/
inductive Action_ (E : Type) : Type where
  | interrupt : Action_ E
  | pause (i : Nat) : Action_ E
  | resume (i : Nat) : Action_ E
  | remove (i : Nat) : Action_ E
  | modify (f : E → E) : Action_ E

/-- Mirrors ReceiverData_: activity state, stable identity, callback. -/
structure ReceiverData_ (E : Type) : Type where
  State : ReceiverState_
  Index : Nat
  Function : List (Action_ E)

/-- Mirrors the static data of Event_ for one payload type. -/
structure Event_ (E : Type) : Type where
  State : EventState_
  NextReceiverIndex : Nat
  ReceiversContainer : List (ReceiverData_ E)

/-- Mirrors Subscription_: only the bound identity, 0 when unbound. -/
structure Subscription_ : Type where
  ReceiverIndex : Nat

/-- The initial static state of the channel: Waiting, next identity 1, no
receivers. -/
def initialChannel (E : Type) : Event_ E :=
  { State := EventState_.Waiting, NextReceiverIndex := 1, ReceiversContainer := [] }

/-- Mirrors Subscription_.ForThis: walk the container, apply the action to the
first entry whose identity matches, stop there. -/
def ForThis {E : Type} (i : Nat) (act : ReceiverData_ E → ReceiverData_ E) :
    List (ReceiverData_ E) → List (ReceiverData_ E)
  | [] => []
  | r :: rs => if r.Index = i then act r :: rs else r :: ForThis i act rs

/-- Erasure of the first entry with the given identity, as done by
Subscription_.Remove via find_if and erase. -/
def eraseFirst {E : Type} (i : Nat) : List (ReceiverData_ E) → List (ReceiverData_ E)
  | [] => []
  | r :: rs => if r.Index = i then rs else r :: eraseFirst i rs

/-- Mirrors Event_.Interrupt: outside of Sending the assertion fires (a no-op
here) and the call returns with nothing changed; during Sending the state
becomes Interrupted. -/
def Event_.Interrupt {E : Type} (c : Event_ E) : Event_ E :=
  if c.State ≠ EventState_.Sending then c
  else { c with State := EventState_.Interrupted }

/-- Mirrors Subscription_.Pause: ForThis with the body that asserts Active (a
no-op) and sets the entry to Paused. -/
def Subscription_.Pause {E : Type} (s : Subscription_) (c : Event_ E) : Event_ E :=
  { c with ReceiversContainer :=
      (ForThis s.ReceiverIndex (fun r => { r with State := ReceiverState_.Paused })
        c.ReceiversContainer) }

/-- Mirrors Subscription_.Resume: ForThis with the body that asserts Paused (a
no-op) and sets the entry to Active. -/
def Subscription_.Resume {E : Type} (s : Subscription_) (c : Event_ E) : Event_ E :=
  { c with ReceiversContainer :=
      (ForThis s.ReceiverIndex (fun r => { r with State := ReceiverState_.Active })
        c.ReceiversContainer) }

/-- Mirrors Subscription_.IsValid: the bound identity is nonzero. -/
def Subscription_.IsValid (s : Subscription_) : Bool :=
  s.ReceiverIndex != 0

/-- Mirrors Subscription_.Remove: look the entry up by the bound identity; when
found, unbind the handle and erase the entry; when absent, the assertion fires
(a no-op) and nothing changes. -/
def Subscription_.Remove {E : Type} (s : Subscription_) (c : Event_ E) :
    Subscription_ × Event_ E :=
  if c.ReceiversContainer.any (fun r => r.Index == s.ReceiverIndex) then
    (⟨0⟩, { c with ReceiversContainer := eraseFirst s.ReceiverIndex c.ReceiversContainer })
  else (s, c)

/-- The number of values of the 64-bit size_t, the type ReceiverIndex_ of
the source: its arithmetic wraps modulo this constant (2 to the 64th). -/
def sizeTCard : Nat := 18446744073709551616

/-- Mirrors Event_.Receive: append an Active entry carrying the current
NextReceiverIndex (the post-increment hands the old value to emplace_back),
increment NextReceiverIndex with the size_t wrap, and return a handle bound
to NextReceiverIndex - 1, the subtraction also computed in size_t (adding
2 to the 64th minus 1 modulo 2 to the 64th). -/
def Event_.Receive {E : Type} (c : Event_ E) (f : List (Action_ E)) :
    Event_ E × Subscription_ :=
  ({ c with
      ReceiversContainer := c.ReceiversContainer ++
        [{ State := ReceiverState_.Active, Index := c.NextReceiverIndex, Function := f }],
      NextReceiverIndex := (c.NextReceiverIndex + 1) % sizeTCard },
   ⟨((c.NextReceiverIndex + 1) % sizeTCard + (sizeTCard - 1)) % sizeTCard⟩)

/-- Interpretation of one callback command against the channel and the event
value, each through the very operation of the channel surface it names. -/
def runAction {E : Type} (s : Event_ E × E) : Action_ E → Event_ E × E
  | Action_.interrupt => (s.1.Interrupt, s.2)
  | Action_.pause i => (Subscription_.Pause ⟨i⟩ s.1, s.2)
  | Action_.resume i => (Subscription_.Resume ⟨i⟩ s.1, s.2)
  | Action_.remove i => ((Subscription_.Remove ⟨i⟩ s.1).2, s.2)
  | Action_.modify f => (s.1, f s.2)

/-- A callback body: its commands run in order against the shared channel
state and the event passed by reference. -/
def runActions {E : Type} (acts : List (Action_ E)) (s : Event_ E × E) : Event_ E × E :=
  acts.foldl runAction s

/-- The dispatch loop of Event_.Send.  fuel is the distance to the end
iterator computed when the loop started; i is the current offset into the
container.  Each step first checks for interruption (break), then reads the
element at the current offset of the live container: a vacated offset is an
invalidated iterator access, result none.  A Paused entry is skipped, an
Active one is invoked, its invocation recorded as (identity, event value
passed). -/
def sendLoop {E : Type} : Nat → Nat → Event_ E → E → List (Nat × E) →
    Option (Event_ E × E × List (Nat × E))
  | 0, _, c, e, log => some (c, e, log)
  | fuel + 1, i, c, e, log =>
    if c.State ≠ EventState_.Sending then some (c, e, log)
    else
      match c.ReceiversContainer[i]? with
      | none => none
      | some r =>
        if r.State ≠ ReceiverState_.Active then sendLoop fuel (i + 1) c e log
        else
          let s := runActions r.Function (c, e)
          sendLoop fuel (i + 1) s.1 s.2 (log ++ [(r.Index, e)])

/-- Mirrors Event_.Send.  Outside of Waiting the re-entrancy assertion fires
(a no-op) and the call returns at once, nothing invoked, nothing changed.
Otherwise the state becomes Sending, the loop runs with the end iterator
fixed at the current length, and on normal or interrupted completion the
state resets to Waiting.  The result carries the final channel, the final
event value, and the invocation log; none means the loop performed an
invalidated iterator access. -/
def Event_.Send {E : Type} (c : Event_ E) (e : E) :
    Option (Event_ E × E × List (Nat × E)) :=
  if c.State ≠ EventState_.Waiting then some (c, e, [])
  else
    match sendLoop c.ReceiversContainer.length 0
        { c with State := EventState_.Sending } e [] with
    | none => none
    | some (c2, e2, log) => some ({ c2 with State := EventState_.Waiting }, e2, log)

/-- The event mutations of a callback, in order; channel commands leave the
event untouched. -/
def applyMods {E : Type} (acts : List (Action_ E)) (e : E) : E :=
  acts.foldl (fun ev a => match a with | Action_.modify f => f ev | _ => ev) e

/-- Specification-side dispatch over a fixed receiver list: invoke the Active
entries in list order, skip the Paused ones, thread the event value through
the mutations of each invoked callback.  Written from the words of the spec
for the structurally quiet case, to be compared with Event_.Send. -/
def expectedRun {E : Type} (e : E) : List (ReceiverData_ E) → List (Nat × E) × E
  | [] => ([], e)
  | r :: rs =>
    if r.State = ReceiverState_.Active then
      let t := expectedRun (applyMods r.Function e) rs
      ((r.Index, e) :: t.1, t.2)
    else expectedRun e rs

/-- The identities of a receiver list, in list order. -/
def idxs {E : Type} (l : List (ReceiverData_ E)) : List Nat :=
  l.map ReceiverData_.Index

/-- The identity and callback of every entry, in list order; the projection
that forgets only the activity flag. -/
def projs {E : Type} (l : List (ReceiverData_ E)) : List (Nat × List (Action_ E)) :=
  l.map (fun r => (r.Index, r.Function))

/-- One top-level operation on the channel, as issued by client code between
dispatches; handle operations are issued through a handle bound to the given
identity. -/
inductive Op (E : Type) : Type where
  | receive (f : List (Action_ E)) : Op E
  | send (e : E) : Op E
  | interrupt : Op E
  | pause (i : Nat) : Op E
  | resume (i : Nat) : Op E
  | remove (i : Nat) : Op E

/-- Run one top-level operation; the second component lists the identity
assigned when the operation was a registration. -/
def runOp {E : Type} (c : Event_ E) : Op E → Option (Event_ E × List Nat)
  | Op.receive f => some ((c.Receive f).1, [(c.Receive f).2.ReceiverIndex])
  | Op.send e => (c.Send e).map (fun t => (t.1, []))
  | Op.interrupt => some (c.Interrupt, [])
  | Op.pause i => some (Subscription_.Pause ⟨i⟩ c, [])
  | Op.resume i => some (Subscription_.Resume ⟨i⟩ c, [])
  | Op.remove i => some ((Subscription_.Remove ⟨i⟩ c).2, [])

/-- Run a sequence of top-level operations, collecting the identities
assigned by the registrations among them. -/
def runOps {E : Type} (c : Event_ E) : List (Op E) → Option (Event_ E × List Nat)
  | [] => some (c, [])
  | op :: ops =>
    match runOp c op with
    | none => none
    | some (c1, ids) => (runOps c1 ops).map (fun t => (t.1, ids ++ t.2))

/-- A callback command that only mutates the event, never calling back into
the channel. -/
def Action_.isModify {E : Type} : Action_ E → Bool
  | Action_.modify _ => true
  | _ => false

theorem ForThis_mem {E : Type} {i : Nat} {act : ReceiverData_ E → ReceiverData_ E}
    {l : List (ReceiverData_ E)} {x : ReceiverData_ E} (hx : x ∈ ForThis i act l) :
    x ∈ l ∨ ∃ r ∈ l, r.Index = i ∧ x = act r := by
  induction l with
  | nil => simp [ForThis] at hx
  | cons r rs ih =>
    simp only [ForThis] at hx
    by_cases h : r.Index = i
    · rw [if_pos h] at hx
      rcases List.mem_cons.mp hx with h1 | h1
      · exact Or.inr ⟨r, List.mem_cons_self r rs, h, h1⟩
      · exact Or.inl (List.mem_cons_of_mem r h1)
    · rw [if_neg h] at hx
      rcases List.mem_cons.mp hx with h1 | h1
      · exact Or.inl (h1 ▸ List.mem_cons_self r rs)
      · rcases ih h1 with h2 | ⟨r', hr', hi', hx'⟩
        · exact Or.inl (List.mem_cons_of_mem r h2)
        · exact Or.inr ⟨r', List.mem_cons_of_mem r hr', hi', hx'⟩

theorem ForThis_setState_projs {E : Type} (i : Nat) (st : ReceiverState_)
    (l : List (ReceiverData_ E)) :
    projs (ForThis i (fun r => { r with State := st }) l) = projs l := by
  induction l with
  | nil => rfl
  | cons r rs ih =>
    by_cases h : r.Index = i
    · simp [ForThis, h, projs]
    · simp [ForThis, h, projs] at ih ⊢
      exact ih

theorem eraseFirst_sublist {E : Type} (i : Nat) (l : List (ReceiverData_ E)) :
    List.Sublist (eraseFirst i l) l := by
  induction l with
  | nil => exact List.Sublist.refl _
  | cons r rs ih =>
    by_cases h : r.Index = i
    · rw [eraseFirst, if_pos h]
      exact List.Sublist.cons r (List.Sublist.refl rs)
    · simpa [eraseFirst, h] using List.Sublist.cons₂ r ih

theorem idxs_eq_map_fst_projs {E : Type} (l : List (ReceiverData_ E)) :
    idxs l = (projs l).map Prod.fst := by
  simp [idxs, projs, List.map_map]

theorem mem_of_projs_sublist {E : Type} {l' l : List (ReceiverData_ E)}
    (h : List.Sublist (projs l') (projs l)) {x : ReceiverData_ E} (hx : x ∈ l') :
    ∃ y ∈ l, y.Index = x.Index ∧ y.Function = x.Function := by
  have h1 : (x.Index, x.Function) ∈ projs l' :=
    List.mem_map_of_mem (fun r => (r.Index, r.Function)) hx
  have h2 : (x.Index, x.Function) ∈ projs l := h.subset h1
  rcases List.mem_map.mp h2 with ⟨y, hy, hxy⟩
  rw [Prod.ext_iff] at hxy
  exact ⟨y, hy, hxy.1, hxy.2⟩

theorem runAction_projs {E : Type} (s : Event_ E × E) (a : Action_ E) :
    List.Sublist (projs (runAction s a).1.ReceiversContainer) (projs s.1.ReceiversContainer) := by
  cases a with
  | interrupt =>
    simp only [runAction, Event_.Interrupt]
    split <;> exact List.Sublist.refl _
  | pause i =>
    simp only [runAction, Subscription_.Pause]
    rw [ForThis_setState_projs]
  | resume i =>
    simp only [runAction, Subscription_.Resume]
    rw [ForThis_setState_projs]
  | remove i =>
    simp only [runAction, Subscription_.Remove]
    split
    · exact List.Sublist.map _ (eraseFirst_sublist _ _)
    · exact List.Sublist.refl _
  | modify f => exact List.Sublist.refl _

theorem runActions_projs {E : Type} (acts : List (Action_ E)) (s : Event_ E × E) :
    List.Sublist (projs (runActions acts s).1.ReceiversContainer) (projs s.1.ReceiversContainer) := by
  induction acts generalizing s with
  | nil => exact List.Sublist.refl _
  | cons a as ih =>
    exact (ih (runAction s a)).trans (runAction_projs s a)

theorem runAction_State_of_ne {E : Type} {s : Event_ E × E} {a : Action_ E}
    (h : a ≠ Action_.interrupt) : (runAction s a).1.State = s.1.State := by
  cases a with
  | interrupt => exact absurd rfl h
  | pause i => rfl
  | resume i => rfl
  | remove i =>
    simp only [runAction, Subscription_.Remove]
    split <;> rfl
  | modify f => rfl

theorem runAction_State_cases {E : Type} (s : Event_ E × E) (a : Action_ E) :
    (runAction s a).1.State = s.1.State ∨
      (runAction s a).1.State = EventState_.Interrupted := by
  cases a with
  | interrupt =>
    simp only [runAction, Event_.Interrupt]
    split
    · exact Or.inl rfl
    · exact Or.inr rfl
  | pause i => exact Or.inl rfl
  | resume i => exact Or.inl rfl
  | remove i => exact Or.inl (runAction_State_of_ne (by simp))
  | modify f => exact Or.inl rfl

theorem runAction_interrupted {E : Type} {s : Event_ E × E} (a : Action_ E)
    (h : s.1.State = EventState_.Interrupted) :
    (runAction s a).1.State = EventState_.Interrupted := by
  cases a with
  | interrupt =>
    simp only [runAction, Event_.Interrupt]
    rw [if_pos (by rw [h]; simp)]
    exact h
  | pause i => exact h
  | resume i => exact h
  | remove i => rw [runAction_State_of_ne (by simp)]; exact h
  | modify f => exact h

theorem runActions_interrupted {E : Type} (acts : List (Action_ E)) (s : Event_ E × E)
    (h : s.1.State = EventState_.Interrupted) :
    (runActions acts s).1.State = EventState_.Interrupted := by
  induction acts generalizing s with
  | nil => exact h
  | cons a as ih => exact ih (runAction s a) (runAction_interrupted a h)

theorem runActions_state_cases {E : Type} (acts : List (Action_ E)) (s : Event_ E × E)
    (h : s.1.State = EventState_.Sending) :
    (runActions acts s).1.State = EventState_.Sending ∨
      (runActions acts s).1.State = EventState_.Interrupted := by
  induction acts generalizing s with
  | nil => exact Or.inl h
  | cons a as ih =>
    rcases runAction_State_cases s a with h1 | h1
    · exact ih (runAction s a) (h1.trans h)
    · exact Or.inr (runActions_interrupted as (runAction s a) h1)

theorem runActions_mem_interrupt {E : Type} (acts : List (Action_ E)) (s : Event_ E × E)
    (h : s.1.State = EventState_.Sending) (hm : Action_.interrupt ∈ acts) :
    (runActions acts s).1.State = EventState_.Interrupted := by
  induction acts generalizing s with
  | nil => exact absurd hm (List.not_mem_nil _)
  | cons a as ih =>
    by_cases ha : a = Action_.interrupt
    · subst ha
      have h1 : (runAction s Action_.interrupt).1.State = EventState_.Interrupted := by
        simp only [runAction, Event_.Interrupt]
        rw [if_neg (by rw [h]; simp)]
      rw [runActions, List.foldl_cons]
      exact runActions_interrupted as _ h1
    · have hm' : Action_.interrupt ∈ as := by
        rcases List.mem_cons.mp hm with h2 | h2
        · exact absurd h2.symm ha
        · exact h2
      rw [runActions, List.foldl_cons]
      rcases runAction_State_cases s a with h1 | h1
      · exact ih (runAction s a) (h1.trans h) hm'
      · exact runActions_interrupted as (runAction s a) h1

theorem runAction_Next {E : Type} (s : Event_ E × E) (a : Action_ E) :
    (runAction s a).1.NextReceiverIndex = s.1.NextReceiverIndex := by
  cases a with
  | interrupt =>
    simp only [runAction, Event_.Interrupt]
    split <;> rfl
  | pause i => rfl
  | resume i => rfl
  | remove i =>
    simp only [runAction, Subscription_.Remove]
    split <;> rfl
  | modify f => rfl

theorem runActions_Next {E : Type} (acts : List (Action_ E)) (s : Event_ E × E) :
    (runActions acts s).1.NextReceiverIndex = s.1.NextReceiverIndex := by
  induction acts generalizing s with
  | nil => rfl
  | cons a as ih => exact (ih (runAction s a)).trans (runAction_Next s a)

theorem runAction_event {E : Type} (s : Event_ E × E) (a : Action_ E) :
    (runAction s a).2 = (match a with | Action_.modify f => f s.2 | _ => s.2) := by
  cases a <;> rfl

theorem runActions_event {E : Type} (acts : List (Action_ E)) (s : Event_ E × E) :
    (runActions acts s).2 = applyMods acts s.2 := by
  induction acts generalizing s with
  | nil => rfl
  | cons a as ih =>
    rw [runActions, List.foldl_cons, applyMods, List.foldl_cons]
    have := ih (runAction s a)
    rw [runActions] at this
    rw [this, runAction_event]
    cases a <;> rfl

theorem runAction_pure {E : Type} {s : Event_ E × E} {a : Action_ E}
    (h : a.isModify = true) : (runAction s a).1 = s.1 := by
  cases a <;> first
    | rfl
    | exact absurd h (by simp [Action_.isModify])

theorem runActions_pure {E : Type} {acts : List (Action_ E)} (s : Event_ E × E)
    (h : ∀ a ∈ acts, a.isModify = true) : (runActions acts s).1 = s.1 := by
  induction acts generalizing s with
  | nil => rfl
  | cons a as ih =>
    rw [runActions, List.foldl_cons]
    have h1 : (runAction s a).1 = s.1 := runAction_pure (h a (List.mem_cons_self a as))
    have h2 := ih (runAction s a) (fun b hb => h b (List.mem_cons_of_mem a hb))
    rw [runActions] at h2
    rw [h2, h1]


theorem mem_of_getElem?_some {α : Type} {l : List α} {i : Nat} {a : α}
    (h : l[i]? = some a) : a ∈ l := by
  rcases List.getElem?_eq_some.mp h with ⟨hi, rfl⟩
  exact List.getElem_mem hi

theorem mem_drop_of_getElem? {α : Type} {l : List α} {i : Nat} {a : α}
    (h : l[i]? = some a) : a ∈ l.drop i := by
  induction l generalizing i with
  | nil => simp at h
  | cons b bs ih =>
    cases i with
    | zero =>
      rw [List.getElem?_cons_zero, Option.some_inj] at h
      simp [h]
    | succ i =>
      rw [List.getElem?_cons_succ] at h
      rw [List.drop_succ_cons]
      exact ih h

theorem mem_drop_of_mem_drop_succ {α : Type} {l : List α} {i : Nat} {a : α}
    (h : a ∈ l.drop (i + 1)) : a ∈ l.drop i := by
  induction l generalizing i with
  | nil => simp at h
  | cons b bs ih =>
    cases i with
    | zero =>
      rw [List.drop_succ_cons, List.drop_zero] at h
      rw [List.drop_zero]
      exact List.mem_cons_of_mem b h
    | succ i =>
      rw [List.drop_succ_cons] at h
      rw [List.drop_succ_cons]
      exact ih h

theorem pairwise_lt_of_getElem?_drop {l : List Nat} {i : Nat} {a : Nat}
    (hp : l.Pairwise (· < ·)) (h : l[i]? = some a) :
    ∀ b ∈ l.drop (i + 1), a < b := by
  induction l generalizing i with
  | nil => simp at h
  | cons c cs ih =>
    rcases List.pairwise_cons.mp hp with ⟨hc, hcs⟩
    cases i with
    | zero =>
      rw [List.getElem?_cons_zero, Option.some_inj] at h
      rw [List.drop_succ_cons, List.drop_zero]
      exact fun b hb => h ▸ hc b hb
    | succ i =>
      rw [List.getElem?_cons_succ] at h
      rw [List.drop_succ_cons]
      exact ih hcs h

theorem sendLoop_break {E : Type} {c : Event_ E} (fuel i : Nat) (e : E)
    (log : List (Nat × E)) (h : c.State ≠ EventState_.Sending) :
    sendLoop fuel i c e log = some (c, e, log) := by
  cases fuel with
  | zero => rfl
  | succ fuel => rw [sendLoop, if_pos h]

theorem sendLoop_acc {E : Type} (fuel : Nat) :
    ∀ (i : Nat) (c : Event_ E) (e : E) (log : List (Nat × E)),
    sendLoop fuel i c e log =
      (sendLoop fuel i c e []).map (fun t => (t.1, t.2.1, log ++ t.2.2)) := by
  induction fuel with
  | zero => intro i c e log; simp [sendLoop]
  | succ fuel ih =>
    intro i c e log
    by_cases h : c.State ≠ EventState_.Sending
    · rw [sendLoop_break _ _ _ _ h, sendLoop_break _ _ _ _ h]
      simp
    · cases hr : c.ReceiversContainer[i]? with
      | none => simp [sendLoop, if_neg h, hr]
      | some r =>
        simp only [sendLoop, if_neg h, hr]
        by_cases hs : r.State ≠ ReceiverState_.Active
        · rw [if_pos hs, if_pos hs]
          exact ih (i + 1) c e log
        · rw [if_neg hs, if_neg hs]
          rw [ih (i + 1) _ _ (log ++ [(r.Index, e)]), ih (i + 1) _ _ ([] ++ [(r.Index, e)])]
          cases sendLoop fuel (i + 1) (runActions r.Function (c, e)).1
              (runActions r.Function (c, e)).2 [] with
          | none => rfl
          | some t => simp

theorem sendLoop_Next {E : Type} (fuel : Nat) :
    ∀ (i : Nat) (c : Event_ E) (e : E) (log : List (Nat × E))
      (c2 : Event_ E) (e2 : E) (log2 : List (Nat × E)),
    sendLoop fuel i c e log = some (c2, e2, log2) →
      c2.NextReceiverIndex = c.NextReceiverIndex := by
  induction fuel with
  | zero =>
    intro i c e log c2 e2 log2 h
    rw [sendLoop, Option.some_inj] at h
    exact (congrArg (fun t => t.1.NextReceiverIndex) h).symm
  | succ fuel ih =>
    intro i c e log c2 e2 log2 h
    by_cases hst : c.State ≠ EventState_.Sending
    · rw [sendLoop_break _ _ _ _ hst, Option.some_inj] at h
      exact (congrArg (fun t => t.1.NextReceiverIndex) h).symm
    · cases hr : c.ReceiversContainer[i]? with
      | none => rw [sendLoop, if_neg hst, hr] at h; exact absurd h (by simp)
      | some r =>
        rw [sendLoop, if_neg hst] at h
        simp only [hr] at h
        by_cases hs : r.State ≠ ReceiverState_.Active
        · rw [if_pos hs] at h
          exact ih (i + 1) c e log c2 e2 log2 h
        · rw [if_neg hs] at h
          exact (ih (i + 1) _ _ _ c2 e2 log2 h).trans (runActions_Next r.Function (c, e))

theorem some_triple_inj {E : Type} {c c2 : Event_ E} {e e2 : E} {t t2 : List (Nat × E)}
    (h : (some (c, e, t) : Option (Event_ E × E × List (Nat × E))) = some (c2, e2, t2)) :
    c = c2 ∧ e = e2 ∧ t = t2 := by
  rw [Option.some_inj] at h
  simp only [Prod.mk.injEq] at h
  exact h

theorem sendLoop_succ_paused {E : Type} {fuel i : Nat} {c c2 : Event_ E} {e e2 : E}
    {t : List (Nat × E)} {r : ReceiverData_ E}
    (hst : c.State = EventState_.Sending)
    (hr : c.ReceiversContainer[i]? = some r)
    (hs : r.State ≠ ReceiverState_.Active)
    (h : sendLoop (fuel + 1) i c e [] = some (c2, e2, t)) :
    sendLoop fuel (i + 1) c e [] = some (c2, e2, t) := by
  rw [sendLoop, if_neg (by rw [hst]; simp)] at h
  simp only [hr] at h
  rw [if_pos hs] at h
  exact h

theorem sendLoop_succ_active {E : Type} {fuel i : Nat} {c c2 : Event_ E} {e e2 : E}
    {t : List (Nat × E)} {r : ReceiverData_ E}
    (hst : c.State = EventState_.Sending)
    (hr : c.ReceiversContainer[i]? = some r)
    (hs : r.State = ReceiverState_.Active)
    (h : sendLoop (fuel + 1) i c e [] = some (c2, e2, t)) :
    ∃ t2, sendLoop fuel (i + 1) (runActions r.Function (c, e)).1
        (runActions r.Function (c, e)).2 [] = some (c2, e2, t2) ∧
      t = (r.Index, e) :: t2 := by
  rw [sendLoop, if_neg (by rw [hst]; simp)] at h
  simp only [hr] at h
  rw [if_neg (by rw [hs]; simp)] at h
  rw [sendLoop_acc] at h
  cases hb : sendLoop fuel (i + 1) (runActions r.Function (c, e)).1
      (runActions r.Function (c, e)).2 [] with
  | none => rw [hb] at h; exact absurd h (by simp)
  | some u =>
    obtain ⟨uc, ue, ut⟩ := u
    rw [hb, Option.map_some'] at h
    dsimp only at h
    simp only [List.nil_append, List.singleton_append] at h
    obtain ⟨rfl, rfl, h3⟩ := some_triple_inj h
    exact ⟨ut, rfl, h3.symm⟩

theorem sublist_recv_runActions {E : Type} (acts : List (Action_ E)) (s : Event_ E × E) :
    List.Sublist (idxs (runActions acts s).1.ReceiversContainer)
      (idxs s.1.ReceiversContainer) := by
  rw [idxs_eq_map_fst_projs, idxs_eq_map_fst_projs]
  exact List.Sublist.map Prod.fst (runActions_projs acts s)

theorem sendLoop_sorted {E : Type} (fuel : Nat) :
    ∀ (i : Nat) (c : Event_ E) (e : E) (c2 : Event_ E) (e2 : E) (t : List (Nat × E)),
    sendLoop fuel i c e [] = some (c2, e2, t) →
    (idxs c.ReceiversContainer).Pairwise (· < ·) →
    (t.map Prod.fst).Pairwise (· < ·) ∧
      ∀ p ∈ t, p.1 ∈ (idxs c.ReceiversContainer).drop i := by
  induction fuel with
  | zero =>
    intro i c e c2 e2 t h hp
    rw [sendLoop] at h
    obtain ⟨rfl, rfl, rfl⟩ := some_triple_inj h
    simp
  | succ fuel ih =>
    intro i c e c2 e2 t h hp
    by_cases hst : c.State ≠ EventState_.Sending
    · rw [sendLoop_break _ _ _ _ hst] at h
      obtain ⟨rfl, rfl, rfl⟩ := some_triple_inj h
      simp
    · rw [not_not] at hst
      cases hr : c.ReceiversContainer[i]? with
      | none =>
        rw [sendLoop, if_neg (by rw [hst]; simp), hr] at h
        exact absurd h (by simp)
      | some r =>
        by_cases hs : r.State = ReceiverState_.Active
        · obtain ⟨t2, hb, rfl⟩ := sendLoop_succ_active hst hr hs h
          have hidx : (idxs c.ReceiversContainer)[i]? = some r.Index := by
            rw [idxs, List.getElem?_map, hr, Option.map_some']
          have hsub : List.Sublist (idxs (runActions r.Function (c, e)).1.ReceiversContainer)
              (idxs c.ReceiversContainer) := sublist_recv_runActions r.Function (c, e)
          have hp2 : (idxs (runActions r.Function (c, e)).1.ReceiversContainer).Pairwise
              (· < ·) := List.Pairwise.sublist hsub hp
          obtain ⟨ihs, ihm⟩ := ih (i + 1) _ _ c2 e2 t2 hb hp2
          have hlt : ∀ p ∈ t2, r.Index < p.1 := by
            intro p hpt
            have h1 : p.1 ∈ (idxs (runActions r.Function (c, e)).1.ReceiversContainer).drop
                (i + 1) := ihm p hpt
            have h2 : p.1 ∈ (idxs c.ReceiversContainer).drop (i + 1) :=
              (List.Sublist.drop hsub (i + 1)).subset h1
            exact pairwise_lt_of_getElem?_drop hp hidx p.1 h2
          constructor
          · rw [List.map_cons, List.pairwise_cons]
            refine ⟨?_, ihs⟩
            intro b hb2
            rcases List.mem_map.mp hb2 with ⟨p, hpt, rfl⟩
            exact hlt p hpt
          · intro p hpt
            rcases List.mem_cons.mp hpt with h1 | h1
            · rw [h1]
              exact mem_drop_of_getElem? hidx
            · have h2 : p.1 ∈ (idxs c.ReceiversContainer).drop (i + 1) :=
                (List.Sublist.drop hsub (i + 1)).subset (ihm p h1)
              exact mem_drop_of_mem_drop_succ h2
        · have h2 := sendLoop_succ_paused hst hr hs h
          obtain ⟨ihs, ihm⟩ := ih (i + 1) c e c2 e2 t h2 hp
          exact ⟨ihs, fun p hpt => mem_drop_of_mem_drop_succ (ihm p hpt)⟩

theorem sendLoop_absent {E : Type} (k : Nat) (fuel : Nat) :
    ∀ (i : Nat) (c : Event_ E) (e : E) (c2 : Event_ E) (e2 : E) (t : List (Nat × E)),
    sendLoop fuel i c e [] = some (c2, e2, t) →
    (∀ x ∈ c.ReceiversContainer, x.Index ≠ k) →
    ∀ p ∈ t, p.1 ≠ k := by
  induction fuel with
  | zero =>
    intro i c e c2 e2 t h hk
    rw [sendLoop] at h
    obtain ⟨rfl, rfl, rfl⟩ := some_triple_inj h
    simp
  | succ fuel ih =>
    intro i c e c2 e2 t h hk
    by_cases hst : c.State ≠ EventState_.Sending
    · rw [sendLoop_break _ _ _ _ hst] at h
      obtain ⟨rfl, rfl, rfl⟩ := some_triple_inj h
      simp
    · rw [not_not] at hst
      cases hr : c.ReceiversContainer[i]? with
      | none =>
        rw [sendLoop, if_neg (by rw [hst]; simp), hr] at h
        exact absurd h (by simp)
      | some r =>
        by_cases hs : r.State = ReceiverState_.Active
        · obtain ⟨t2, hb, rfl⟩ := sendLoop_succ_active hst hr hs h
          have hk2 : ∀ x ∈ (runActions r.Function (c, e)).1.ReceiversContainer,
              x.Index ≠ k := by
            intro x hx
            rcases mem_of_projs_sublist (runActions_projs r.Function (c, e)) hx with
              ⟨y, hy, hyi, _⟩
            rw [← hyi]
            exact hk y hy
          intro p hpt
          rcases List.mem_cons.mp hpt with h1 | h1
          · rw [h1]
            exact hk r (mem_of_getElem?_some hr)
          · exact ih (i + 1) _ _ c2 e2 t2 hb hk2 p h1
        · exact ih (i + 1) c e c2 e2 t (sendLoop_succ_paused hst hr hs h) hk

theorem runAction_pausedAt {E : Type} {k : Nat} {s : Event_ E × E} {a : Action_ E}
    (ha : a ≠ Action_.resume k)
    (hp : ∀ x ∈ s.1.ReceiversContainer, x.Index = k → x.State = ReceiverState_.Paused) :
    ∀ x ∈ (runAction s a).1.ReceiversContainer, x.Index = k →
      x.State = ReceiverState_.Paused := by
  cases a with
  | interrupt =>
    intro x hx
    simp only [runAction, Event_.Interrupt] at hx
    split at hx
    · exact hp x hx
    · exact hp x hx
  | pause j =>
    intro x hx hxk
    simp only [runAction, Subscription_.Pause] at hx
    rcases ForThis_mem hx with h1 | ⟨r, hr, hri, rfl⟩
    · exact hp x h1 hxk
    · rfl
  | resume j =>
    intro x hx hxk
    simp only [runAction, Subscription_.Resume] at hx
    rcases ForThis_mem hx with h1 | ⟨r, hr, hri, rfl⟩
    · exact hp x h1 hxk
    · exfalso
      apply ha
      have : j = k := by
        have : r.Index = k := hxk
        rw [← this, hri]
      rw [this]
  | remove j =>
    intro x hx hxk
    simp only [runAction, Subscription_.Remove] at hx
    split at hx
    · exact hp x ((eraseFirst_sublist j s.1.ReceiversContainer).subset hx) hxk
    · exact hp x hx hxk
  | modify f => exact hp

theorem runActions_pausedAt {E : Type} {k : Nat} {acts : List (Action_ E)}
    (s : Event_ E × E) (hnr : Action_.resume k ∉ acts)
    (hp : ∀ x ∈ s.1.ReceiversContainer, x.Index = k → x.State = ReceiverState_.Paused) :
    ∀ x ∈ (runActions acts s).1.ReceiversContainer, x.Index = k →
      x.State = ReceiverState_.Paused := by
  induction acts generalizing s with
  | nil => exact hp
  | cons a as ih =>
    rw [runActions, List.foldl_cons]
    have ha : a ≠ Action_.resume k := fun hh => hnr (hh ▸ List.mem_cons_self a as)
    have hnr2 : Action_.resume k ∉ as := fun hh => hnr (List.mem_cons_of_mem a hh)
    exact ih (runAction s a) hnr2 (runAction_pausedAt ha hp)

theorem sendLoop_paused {E : Type} (k : Nat) (fuel : Nat) :
    ∀ (i : Nat) (c : Event_ E) (e : E) (c2 : Event_ E) (e2 : E) (t : List (Nat × E)),
    sendLoop fuel i c e [] = some (c2, e2, t) →
    (∀ x ∈ c.ReceiversContainer, x.Index = k → x.State = ReceiverState_.Paused) →
    (∀ x ∈ c.ReceiversContainer, Action_.resume k ∉ x.Function) →
    ∀ p ∈ t, p.1 ≠ k := by
  induction fuel with
  | zero =>
    intro i c e c2 e2 t h hp hnr
    rw [sendLoop] at h
    obtain ⟨rfl, rfl, rfl⟩ := some_triple_inj h
    simp
  | succ fuel ih =>
    intro i c e c2 e2 t h hp hnr
    by_cases hst : c.State ≠ EventState_.Sending
    · rw [sendLoop_break _ _ _ _ hst] at h
      obtain ⟨rfl, rfl, rfl⟩ := some_triple_inj h
      simp
    · rw [not_not] at hst
      cases hr : c.ReceiversContainer[i]? with
      | none =>
        rw [sendLoop, if_neg (by rw [hst]; simp), hr] at h
        exact absurd h (by simp)
      | some r =>
        by_cases hs : r.State = ReceiverState_.Active
        · obtain ⟨t2, hb, rfl⟩ := sendLoop_succ_active hst hr hs h
          have hrk : r.Index ≠ k := by
            intro hk
            have := hp r (mem_of_getElem?_some hr) hk
            rw [hs] at this
            exact ReceiverState_.noConfusion this
          have hp2 : ∀ x ∈ (runActions r.Function (c, e)).1.ReceiversContainer,
              x.Index = k → x.State = ReceiverState_.Paused :=
            runActions_pausedAt (c, e) (hnr r (mem_of_getElem?_some hr)) hp
          have hnr2 : ∀ x ∈ (runActions r.Function (c, e)).1.ReceiversContainer,
              Action_.resume k ∉ x.Function := by
            intro x hx
            rcases mem_of_projs_sublist (runActions_projs r.Function (c, e)) hx with
              ⟨y, hy, _, hyf⟩
            rw [← hyf]
            exact hnr y hy
          intro p hpt
          rcases List.mem_cons.mp hpt with h1 | h1
          · rw [h1]
            exact hrk
          · exact ih (i + 1) _ _ c2 e2 t2 hb hp2 hnr2 p h1
        · exact ih (i + 1) c e c2 e2 t (sendLoop_succ_paused hst hr hs h) hp hnr

theorem sendLoop_interrupt_len {E : Type} (k : Nat) (fuel : Nat) :
    ∀ (i : Nat) (c : Event_ E) (e : E) (c2 : Event_ E) (e2 : E) (t : List (Nat × E)),
    sendLoop fuel i c e [] = some (c2, e2, t) →
    (∀ x ∈ c.ReceiversContainer, x.Index = k → Action_.interrupt ∈ x.Function) →
    ∀ (j : Nat) (v : E), t[j]? = some (k, v) → t.length = j + 1 := by
  induction fuel with
  | zero =>
    intro i c e c2 e2 t h hint j v hj
    rw [sendLoop] at h
    obtain ⟨rfl, rfl, rfl⟩ := some_triple_inj h
    simp at hj
  | succ fuel ih =>
    intro i c e c2 e2 t h hint j v hj
    by_cases hst : c.State ≠ EventState_.Sending
    · rw [sendLoop_break _ _ _ _ hst] at h
      obtain ⟨rfl, rfl, rfl⟩ := some_triple_inj h
      simp at hj
    · rw [not_not] at hst
      cases hr : c.ReceiversContainer[i]? with
      | none =>
        rw [sendLoop, if_neg (by rw [hst]; simp), hr] at h
        exact absurd h (by simp)
      | some r =>
        by_cases hs : r.State = ReceiverState_.Active
        · obtain ⟨t2, hb, rfl⟩ := sendLoop_succ_active hst hr hs h
          cases j with
          | zero =>
            rw [List.getElem?_cons_zero, Option.some_inj] at hj
            have hrk : r.Index = k := congrArg Prod.fst hj
            have hintr : Action_.interrupt ∈ r.Function :=
              hint r (mem_of_getElem?_some hr) hrk
            have hI : (runActions r.Function (c, e)).1.State = EventState_.Interrupted :=
              runActions_mem_interrupt r.Function (c, e) hst hintr
            rw [sendLoop_break _ _ _ _ (by rw [hI]; simp)] at hb
            obtain ⟨-, -, h3⟩ := some_triple_inj hb
            rw [← h3]
            rfl
          | succ j =>
            rw [List.getElem?_cons_succ] at hj
            have hint2 : ∀ x ∈ (runActions r.Function (c, e)).1.ReceiversContainer,
                x.Index = k → Action_.interrupt ∈ x.Function := by
              intro x hx hxk
              rcases mem_of_projs_sublist (runActions_projs r.Function (c, e)) hx with
                ⟨y, hy, hyi, hyf⟩
              rw [← hyf]
              exact hint y hy (hyi.trans hxk)
            have := ih (i + 1) _ _ c2 e2 t2 hb hint2 j v hj
            rw [List.length_cons, this]
        · exact ih (i + 1) c e c2 e2 t (sendLoop_succ_paused hst hr hs h) hint j v hj

theorem setState_self {E : Type} {c : Event_ E} (h : c.State = EventState_.Waiting) :
    { c with State := EventState_.Waiting } = c := by
  cases c
  rw [← h]

theorem sendLoop_pure {E : Type} (fuel : Nat) :
    ∀ (i : Nat) (c : Event_ E) (e : E),
    c.State = EventState_.Sending →
    (∀ x ∈ c.ReceiversContainer, ∀ a ∈ x.Function, a.isModify = true) →
    fuel + i = c.ReceiversContainer.length →
    sendLoop fuel i c e [] =
      some (c, (expectedRun e (c.ReceiversContainer.drop i)).2,
        (expectedRun e (c.ReceiversContainer.drop i)).1) := by
  induction fuel with
  | zero =>
    intro i c e hst hpure hlen
    have hi : i = c.ReceiversContainer.length := by omega
    rw [sendLoop, hi, List.drop_length]
    rfl
  | succ fuel ih =>
    intro i c e hst hpure hlen
    have hi : i < c.ReceiversContainer.length := by omega
    have hr : c.ReceiversContainer[i]? = some c.ReceiversContainer[i] :=
      List.getElem?_eq_getElem hi
    have hdrop : c.ReceiversContainer.drop i =
        c.ReceiversContainer[i] :: c.ReceiversContainer.drop (i + 1) :=
      List.drop_eq_getElem_cons hi
    rw [sendLoop, if_neg (by rw [hst]; simp)]
    simp only [hr]
    by_cases hs : c.ReceiversContainer[i].State = ReceiverState_.Active
    · rw [if_neg (by rw [hs]; simp)]
      have hmem := List.getElem_mem hi
      have hch : (runActions c.ReceiversContainer[i].Function (c, e)).1 = c :=
        runActions_pure (c, e) (hpure _ hmem)
      have hev : (runActions c.ReceiversContainer[i].Function (c, e)).2 =
          applyMods c.ReceiversContainer[i].Function e :=
        runActions_event _ (c, e)
      rw [hch, hev, List.nil_append, sendLoop_acc,
        ih (i + 1) c (applyMods c.ReceiversContainer[i].Function e) hst hpure (by omega),
        Option.map_some']
      dsimp only
      rw [hdrop]
      simp only [expectedRun, if_pos hs, List.singleton_append]
    · rw [if_pos (by intro hh; exact hs hh)]
      rw [ih (i + 1) c e hst hpure (by omega), hdrop]
      simp only [expectedRun, if_neg hs]

theorem Send_not_waiting {E : Type} (c : Event_ E) (e : E)
    (h : c.State ≠ EventState_.Waiting) : c.Send e = some (c, e, []) := by
  rw [Event_.Send, if_pos h]

theorem Send_some_elim {E : Type} {c : Event_ E} {e : E}
    {p : Event_ E × E × List (Nat × E)}
    (hW : c.State = EventState_.Waiting) (h : c.Send e = some p) :
    ∃ c2 e2 t, sendLoop c.ReceiversContainer.length 0
        { c with State := EventState_.Sending } e [] = some (c2, e2, t) ∧
      p = ({ c2 with State := EventState_.Waiting }, e2, t) := by
  rw [Event_.Send, if_neg (by rw [hW]; simp)] at h
  cases hb : sendLoop c.ReceiversContainer.length 0
      { c with State := EventState_.Sending } e [] with
  | none =>
    rw [hb] at h
    exact absurd h (by simp)
  | some u =>
    obtain ⟨uc, ue, ut⟩ := u
    rw [hb] at h
    exact ⟨uc, ue, ut, rfl, (Option.some_inj.mp h).symm⟩

theorem Send_state_final {E : Type} {c : Event_ E} {e : E}
    {p : Event_ E × E × List (Nat × E)}
    (hW : c.State = EventState_.Waiting) (h : c.Send e = some p) :
    p.1.State = EventState_.Waiting := by
  obtain ⟨c2, e2, t, _, rfl⟩ := Send_some_elim hW h
  rfl

theorem Send_Next_eq {E : Type} {c : Event_ E} {e : E}
    {p : Event_ E × E × List (Nat × E)} (h : c.Send e = some p) :
    p.1.NextReceiverIndex = c.NextReceiverIndex := by
  by_cases hW : c.State = EventState_.Waiting
  · obtain ⟨c2, e2, t, hb, rfl⟩ := Send_some_elim hW h
    exact sendLoop_Next c.ReceiversContainer.length 0 { c with State := EventState_.Sending } e [] c2 e2 t hb
  · rw [Send_not_waiting c e hW, Option.some_inj] at h
    rw [← h]

theorem Send_absent {E : Type} (k : Nat) {c : Event_ E} {e : E}
    {p : Event_ E × E × List (Nat × E)} (h : c.Send e = some p)
    (hk : ∀ x ∈ c.ReceiversContainer, x.Index ≠ k) :
    ∀ q ∈ p.2.2, q.1 ≠ k := by
  by_cases hW : c.State = EventState_.Waiting
  · obtain ⟨c2, e2, t, hb, rfl⟩ := Send_some_elim hW h
    exact sendLoop_absent k c.ReceiversContainer.length 0 { c with State := EventState_.Sending } e c2 e2 t hb hk
  · rw [Send_not_waiting c e hW, Option.some_inj] at h
    rw [← h]
    simp

theorem Send_pure {E : Type} (c : Event_ E) (e : E)
    (hW : c.State = EventState_.Waiting)
    (hpure : ∀ x ∈ c.ReceiversContainer, ∀ a ∈ x.Function, a.isModify = true) :
    c.Send e = some (c, (expectedRun e c.ReceiversContainer).2,
      (expectedRun e c.ReceiversContainer).1) := by
  rw [Event_.Send, if_neg (by rw [hW]; simp)]
  rw [sendLoop_pure c.ReceiversContainer.length 0 { c with State := EventState_.Sending }
    e rfl hpure (by simp)]
  dsimp only
  rw [List.drop_zero, setState_self hW]

theorem ForThis_not_mem {E : Type} {k : Nat} (act : ReceiverData_ E → ReceiverData_ E)
    {l : List (ReceiverData_ E)} (h : ∀ x ∈ l, x.Index ≠ k) :
    ForThis k act l = l := by
  induction l with
  | nil => rfl
  | cons r rs ih =>
    rw [ForThis, if_neg (h r (List.mem_cons_self r rs)),
      ih (fun x hx => h x (List.mem_cons_of_mem r hx))]

theorem ForThis_decomp {E : Type} {k : Nat} (act : ReceiverData_ E → ReceiverData_ E)
    {l1 l2 : List (ReceiverData_ E)} {r : ReceiverData_ E}
    (h1 : ∀ x ∈ l1, x.Index ≠ k) (hr : r.Index = k) :
    ForThis k act (l1 ++ r :: l2) = l1 ++ act r :: l2 := by
  induction l1 with
  | nil =>
    rw [List.nil_append, ForThis, if_pos hr, List.nil_append]
  | cons b bs ih =>
    rw [List.cons_append, ForThis, if_neg (h1 b (List.mem_cons_self b bs)),
      ih (fun x hx => h1 x (List.mem_cons_of_mem b hx)), List.cons_append]

theorem eraseFirst_decomp {E : Type} {k : Nat}
    {l1 l2 : List (ReceiverData_ E)} {r : ReceiverData_ E}
    (h1 : ∀ x ∈ l1, x.Index ≠ k) (hr : r.Index = k) :
    eraseFirst k (l1 ++ r :: l2) = l1 ++ l2 := by
  induction l1 with
  | nil => rw [List.nil_append, eraseFirst, if_pos hr, List.nil_append]
  | cons b bs ih =>
    rw [List.cons_append, eraseFirst, if_neg (h1 b (List.mem_cons_self b bs)),
      ih (fun x hx => h1 x (List.mem_cons_of_mem b hx)), List.cons_append]

theorem any_true_of_mem {E : Type} {l : List (ReceiverData_ E)} {r : ReceiverData_ E}
    {k : Nat} (hm : r ∈ l) (hk : r.Index = k) :
    (l.any (fun x => x.Index == k)) = true :=
  List.any_eq_true.mpr ⟨r, hm, by simp [hk]⟩

theorem any_false_of_absent {E : Type} {l : List (ReceiverData_ E)} {k : Nat}
    (h : ∀ x ∈ l, x.Index ≠ k) :
    ¬ ((l.any (fun x => x.Index == k)) = true) := by
  intro hc
  rcases List.any_eq_true.mp hc with ⟨x, hx, hxk⟩
  exact h x hx (by simpa using hxk)

theorem Remove_found {E : Type} {s : Subscription_} {c : Event_ E}
    {l1 l2 : List (ReceiverData_ E)} {r : ReceiverData_ E}
    (hc : c.ReceiversContainer = l1 ++ r :: l2) (hk : r.Index = s.ReceiverIndex)
    (h1 : ∀ x ∈ l1, x.Index ≠ s.ReceiverIndex) :
    Subscription_.Remove s c = (⟨0⟩, { c with ReceiversContainer := l1 ++ l2 }) := by
  rw [Subscription_.Remove,
    if_pos (by rw [hc]; exact any_true_of_mem (by simp) hk), hc,
    eraseFirst_decomp h1 hk]

theorem Remove_absent {E : Type} {s : Subscription_} {c : Event_ E}
    (ha : ∀ x ∈ c.ReceiversContainer, x.Index ≠ s.ReceiverIndex) :
    Subscription_.Remove s c = (s, c) := by
  rw [Subscription_.Remove, if_neg (any_false_of_absent ha)]

theorem Interrupt_of_waiting {E : Type} {c : Event_ E}
    (h : c.State = EventState_.Waiting) : c.Interrupt = c := by
  rw [Event_.Interrupt, if_pos (by rw [h]; simp)]

theorem Remove_State_eq {E : Type} (s : Subscription_) (c : Event_ E) :
    ((Subscription_.Remove s c).2).State = c.State := by
  rw [Subscription_.Remove]
  split <;> rfl

theorem Remove_Next_eq {E : Type} (s : Subscription_) (c : Event_ E) :
    ((Subscription_.Remove s c).2).NextReceiverIndex = c.NextReceiverIndex := by
  rw [Subscription_.Remove]
  split <;> rfl

theorem Interrupt_Next_eq {E : Type} (c : Event_ E) :
    c.Interrupt.NextReceiverIndex = c.NextReceiverIndex := by
  rw [Event_.Interrupt]
  split <;> rfl

theorem expectedRun_countP_zero {E : Type} (k : Nat) (e : E)
    {l : List (ReceiverData_ E)} (h : ∀ x ∈ l, x.Index ≠ k) :
    ((expectedRun e l).1.countP (fun q => q.1 == k)) = 0 := by
  induction l generalizing e with
  | nil => rfl
  | cons r rs ih =>
    have hrk : r.Index ≠ k := h r (List.mem_cons_self r rs)
    have hrest : ∀ x ∈ rs, x.Index ≠ k := fun x hx => h x (List.mem_cons_of_mem r hx)
    by_cases hs : r.State = ReceiverState_.Active
    · rw [expectedRun, if_pos hs]
      rw [List.countP_cons]
      simp only [hrk, beq_iff_eq, if_neg]
      rw [ih _ hrest]
      simp [hrk]
    · rw [expectedRun, if_neg hs]
      exact ih e hrest

theorem expectedRun_countP_one {E : Type} (k : Nat) (e : E)
    {l1 l2 : List (ReceiverData_ E)} {r : ReceiverData_ E}
    (h1 : ∀ x ∈ l1, x.Index ≠ k) (h2 : ∀ x ∈ l2, x.Index ≠ k) (hr : r.Index = k) :
    ((expectedRun e (l1 ++ r :: l2)).1.countP (fun q => q.1 == k)) =
      (if r.State = ReceiverState_.Active then 1 else 0) := by
  induction l1 generalizing e with
  | nil =>
    rw [List.nil_append]
    by_cases hs : r.State = ReceiverState_.Active
    · rw [expectedRun, if_pos hs, if_pos hs]
      rw [List.countP_cons, expectedRun_countP_zero k _ h2]
      simp [hr]
    · rw [expectedRun, if_neg hs, if_neg hs]
      exact expectedRun_countP_zero k e h2
  | cons b bs ih =>
    have hbk : b.Index ≠ k := h1 b (List.mem_cons_self b bs)
    have hrest : ∀ x ∈ bs, x.Index ≠ k := fun x hx => h1 x (List.mem_cons_of_mem b hx)
    rw [List.cons_append]
    by_cases hs : b.State = ReceiverState_.Active
    · rw [expectedRun, if_pos hs]
      rw [List.countP_cons]
      rw [ih (applyMods b.Function e) hrest]
      simp [hbk]
    · rw [expectedRun, if_neg hs]
      exact ih e hrest

theorem runOps_cons_elim {E : Type} {c : Event_ E} {op : Op E} {ops : List (Op E)}
    {p : Event_ E × List Nat} (h : runOps c (op :: ops) = some p) :
    ∃ c1 ids1 q, runOp c op = some (c1, ids1) ∧ runOps c1 ops = some q ∧
      p = (q.1, ids1 ++ q.2) := by
  rw [runOps] at h
  cases hb : runOp c op with
  | none =>
    rw [hb] at h
    exact absurd h (by simp)
  | some u =>
    obtain ⟨c1, ids1⟩ := u
    rw [hb] at h
    dsimp only at h
    cases hq : runOps c1 ops with
    | none =>
      rw [hq] at h
      exact absurd h (by simp)
    | some q =>
      rw [hq, Option.map_some'] at h
      exact ⟨c1, ids1, q, rfl, hq, (Option.some_inj.mp h).symm⟩

theorem sizeTCard_pos : 0 < sizeTCard := by decide

theorem receive_handle_eq {E : Type} (c : Event_ E) (f : List (Action_ E))
    (h : c.NextReceiverIndex < sizeTCard) :
    (c.Receive f).2.ReceiverIndex = c.NextReceiverIndex := by
  show ((c.NextReceiverIndex + 1) % sizeTCard + (sizeTCard - 1)) % sizeTCard =
    c.NextReceiverIndex
  by_cases h1 : c.NextReceiverIndex + 1 < sizeTCard
  · rw [Nat.mod_eq_of_lt h1]
    have h2 : c.NextReceiverIndex + 1 + (sizeTCard - 1) =
        c.NextReceiverIndex + sizeTCard := by omega
    rw [h2, Nat.add_mod_right, Nat.mod_eq_of_lt h]
  · have h2 : c.NextReceiverIndex + 1 = sizeTCard := by omega
    rw [h2, Nat.mod_self, Nat.zero_add,
      Nat.mod_eq_of_lt (Nat.sub_lt sizeTCard_pos Nat.one_pos)]
    omega

theorem runOp_waiting {E : Type} {c : Event_ E} {op : Op E}
    {p : Event_ E × List Nat} (h : runOp c op = some p)
    (hW : c.State = EventState_.Waiting) : p.1.State = EventState_.Waiting := by
  cases op with
  | receive f =>
    rw [runOp, Option.some_inj] at h
    obtain rfl := h.symm
    exact hW
  | send e =>
    rw [runOp] at h
    cases hb : c.Send e with
    | none =>
      rw [hb] at h
      exact absurd h (by simp)
    | some t0 =>
      rw [hb, Option.map_some'] at h
      obtain rfl := (Option.some_inj.mp h).symm
      exact Send_state_final hW hb
  | interrupt =>
    rw [runOp, Option.some_inj] at h
    obtain rfl := h.symm
    rw [Interrupt_of_waiting hW]
    exact hW
  | pause i =>
    rw [runOp, Option.some_inj] at h
    obtain rfl := h.symm
    exact hW
  | resume i =>
    rw [runOp, Option.some_inj] at h
    obtain rfl := h.symm
    exact hW
  | remove i =>
    rw [runOp, Option.some_inj] at h
    obtain rfl := h.symm
    rw [Remove_State_eq]
    exact hW

theorem runOps_waiting {E : Type} :
    ∀ (ops : List (Op E)) (c : Event_ E) (p : Event_ E × List Nat),
    runOps c ops = some p → c.State = EventState_.Waiting →
    p.1.State = EventState_.Waiting := by
  intro ops
  induction ops with
  | nil =>
    intro c p h hW
    rw [runOps, Option.some_inj] at h
    obtain rfl := h.symm
    exact hW
  | cons op ops ih =>
    intro c p h hW
    obtain ⟨c1, ids1, q, hop, hops, rfl⟩ := runOps_cons_elim h
    exact ih c1 q hops (runOp_waiting hop hW)

/-- The number of registrations among a sequence of top-level operations. -/
def receiveCount {E : Type} : List (Op E) → Nat
  | [] => 0
  | Op.receive _ :: ops => receiveCount ops + 1
  | Op.send _ :: ops => receiveCount ops
  | Op.interrupt :: ops => receiveCount ops
  | Op.pause _ :: ops => receiveCount ops
  | Op.resume _ :: ops => receiveCount ops
  | Op.remove _ :: ops => receiveCount ops

theorem runOp_next_ids {E : Type} {c : Event_ E} {op : Op E}
    {p : Event_ E × List Nat} (h : runOp c op = some p) :
    (∃ f, op = Op.receive f ∧
      p.1.NextReceiverIndex = (c.NextReceiverIndex + 1) % sizeTCard ∧
      p.2 = [(c.Receive f).2.ReceiverIndex]) ∨
    (p.1.NextReceiverIndex = c.NextReceiverIndex ∧ p.2 = [] ∧
      ∀ ops0 : List (Op E), receiveCount (op :: ops0) = receiveCount ops0) := by
  cases op with
  | receive f =>
    rw [runOp, Option.some_inj] at h
    obtain rfl := h.symm
    exact Or.inl ⟨f, rfl, rfl, rfl⟩
  | send e =>
    rw [runOp] at h
    cases hb : c.Send e with
    | none =>
      rw [hb] at h
      exact absurd h (by simp)
    | some t0 =>
      rw [hb, Option.map_some'] at h
      obtain rfl := (Option.some_inj.mp h).symm
      exact Or.inr ⟨Send_Next_eq hb, rfl, fun ops0 => rfl⟩
  | interrupt =>
    rw [runOp, Option.some_inj] at h
    obtain rfl := h.symm
    exact Or.inr ⟨Interrupt_Next_eq c, rfl, fun ops0 => rfl⟩
  | pause i =>
    rw [runOp, Option.some_inj] at h
    obtain rfl := h.symm
    exact Or.inr ⟨rfl, rfl, fun ops0 => rfl⟩
  | resume i =>
    rw [runOp, Option.some_inj] at h
    obtain rfl := h.symm
    exact Or.inr ⟨rfl, rfl, fun ops0 => rfl⟩
  | remove i =>
    rw [runOp, Option.some_inj] at h
    obtain rfl := h.symm
    exact Or.inr ⟨Remove_Next_eq _ c, rfl, fun ops0 => rfl⟩

theorem runOps_ids_bounded {E : Type} :
    ∀ (ops : List (Op E)) (c : Event_ E) (p : Event_ E × List Nat),
    runOps c ops = some p →
    c.NextReceiverIndex + receiveCount ops ≤ sizeTCard →
    (∀ x ∈ p.2, c.NextReceiverIndex ≤ x ∧
      x < c.NextReceiverIndex + receiveCount ops) ∧
    p.2.Pairwise (· < ·) := by
  intro ops
  induction ops with
  | nil =>
    intro c p h hbound
    rw [runOps, Option.some_inj] at h
    obtain rfl := h.symm
    exact ⟨by simp, by simp⟩
  | cons op ops ih =>
    intro c p h hbound
    obtain ⟨c1, ids1, q, hop, hops, rfl⟩ := runOps_cons_elim h
    rcases runOp_next_ids hop with ⟨f, rfl, hnext, hids⟩ | ⟨hnext, hids, hcnt⟩
    · dsimp only at hnext hids
      have hcount : receiveCount (Op.receive f :: ops) = receiveCount ops + 1 := rfl
      rw [hcount] at hbound ⊢
      have hlt : c.NextReceiverIndex < sizeTCard := by omega
      have hhandle : (c.Receive f).2.ReceiverIndex = c.NextReceiverIndex :=
        receive_handle_eq c f hlt
      by_cases hcase : c.NextReceiverIndex + 1 < sizeTCard
      · have hc1 : c1.NextReceiverIndex = c.NextReceiverIndex + 1 := by
          rw [hnext, Nat.mod_eq_of_lt hcase]
        obtain ⟨hbt, hpt⟩ := ih c1 q hops (by rw [hc1]; omega)
        constructor
        · intro x hx
          dsimp only at hx
          rw [hids, List.singleton_append] at hx
          rcases List.mem_cons.mp hx with hxe | hx2
          · rw [hxe, hhandle]
            exact ⟨Nat.le_refl _, by omega⟩
          · obtain ⟨ha, hb⟩ := hbt x hx2
            rw [hc1] at ha hb
            exact ⟨by omega, by omega⟩
        · dsimp only
          rw [hids, hhandle, List.singleton_append, List.pairwise_cons]
          refine ⟨?_, hpt⟩
          intro y hy
          obtain ⟨ha, -⟩ := hbt y hy
          rw [hc1] at ha
          omega
      · have hc1eq : c.NextReceiverIndex + 1 = sizeTCard := by omega
        have hcz : receiveCount ops = 0 := by omega
        have hc1 : c1.NextReceiverIndex = 0 := by
          rw [hnext, hc1eq, Nat.mod_self]
        obtain ⟨hbt, hpt⟩ := ih c1 q hops (by rw [hc1]; omega)
        constructor
        · intro x hx
          dsimp only at hx
          rw [hids, List.singleton_append] at hx
          rcases List.mem_cons.mp hx with hxe | hx2
          · rw [hxe, hhandle]
            exact ⟨Nat.le_refl _, by omega⟩
          · obtain ⟨-, hb⟩ := hbt x hx2
            rw [hc1, hcz] at hb
            exact absurd hb (by omega)
        · dsimp only
          rw [hids, hhandle, List.singleton_append, List.pairwise_cons]
          refine ⟨?_, hpt⟩
          intro y hy
          obtain ⟨-, hb⟩ := hbt y hy
          rw [hc1, hcz] at hb
          exact absurd hb (by omega)
    · dsimp only at hnext hids
      rw [hcnt ops] at hbound ⊢
      rw [← hnext] at hbound
      obtain ⟨hbt, hpt⟩ := ih c1 q hops hbound
      rw [hnext] at hbt
      dsimp only
      rw [hids, List.nil_append]
      exact ⟨hbt, hpt⟩

/-- The identities handed out by successive registrations when the counter
starts at the given value and wraps with size_t arithmetic. -/
def idsFrom (next : Nat) : Nat → List Nat
  | 0 => []
  | n + 1 => next :: idsFrom ((next + 1) % sizeTCard) n

theorem runOps_replicate_receive {E : Type} :
    ∀ (n : Nat) (c : Event_ E), c.NextReceiverIndex < sizeTCard →
    ∃ cE, runOps c (List.replicate n (Op.receive [])) =
      some (cE, idsFrom c.NextReceiverIndex n) := by
  intro n
  induction n with
  | zero =>
    intro c h
    exact ⟨c, rfl⟩
  | succ n ih =>
    intro c h
    have hnext : (c.Receive ([] : List (Action_ E))).1.NextReceiverIndex <
        sizeTCard := Nat.mod_lt _ sizeTCard_pos
    obtain ⟨cE, hE⟩ := ih (c.Receive ([] : List (Action_ E))).1 hnext
    refine ⟨cE, ?_⟩
    rw [List.replicate_succ, runOps]
    dsimp only [runOp]
    rw [hE, Option.map_some', receive_handle_eq c ([] : List (Action_ E)) h]
    rfl

theorem zero_mem_idsFrom_zero : ∀ n : Nat, 0 < n → 0 ∈ idsFrom 0 n := by
  intro n hn
  cases n with
  | zero => exact absurd hn (by omega)
  | succ m => exact List.mem_cons_self 0 _

theorem zero_mem_idsFrom : ∀ (n next : Nat), 0 < next → next < sizeTCard →
    sizeTCard - next < n → 0 ∈ idsFrom next n := by
  intro n
  induction n with
  | zero =>
    intro next h1 h2 h3
    exact absurd h3 (by omega)
  | succ n ih =>
    intro next h1 h2 h3
    rw [idsFrom]
    by_cases hcase : next + 1 < sizeTCard
    · refine List.mem_cons_of_mem next ?_
      rw [Nat.mod_eq_of_lt hcase]
      exact ih (next + 1) (by omega) hcase (by omega)
    · have heq : next + 1 = sizeTCard := by omega
      refine List.mem_cons_of_mem next ?_
      rw [heq, Nat.mod_self]
      exact zero_mem_idsFrom_zero n (by omega)

/-- Claim C1: For every channel state and event value, Send invokes exactly
the receiver entries that are Active at the moment the iteration reaches
them, in registration (list) order, skipping Paused entries without invoking
them; each invocation passes the same event value by reference, so a mutation
made by one receiver is visible to every later receiver of the same dispatch.
Formally, for a channel whose identities are listed in ascending registration
order: (1) every completed dispatch invokes identities in strictly ascending
registration order and only identities of registered entries; (2) an entry
that is Paused and that no callback resumes is never invoked; (3) when the
callbacks only mutate the event, the dispatch result is exactly the
specification-side expectedRun: the Active entries in list order, each passed
the event value threaded through the mutations of the earlier invocations,
sharing the mutated event with later receivers. -/
theorem send_dispatch_order_activity_event {E : Type} (c : Event_ E) (e : E)
    (hW : c.State = EventState_.Waiting)
    (hsorted : (idxs c.ReceiversContainer).Pairwise (· < ·)) :
    (∀ p, c.Send e = some p →
      ((p.2.2.map Prod.fst).Pairwise (· < ·) ∧
        ∀ q ∈ p.2.2, q.1 ∈ idxs c.ReceiversContainer)) ∧
    (∀ k, (∀ x ∈ c.ReceiversContainer, x.Index = k → x.State = ReceiverState_.Paused) →
      (∀ x ∈ c.ReceiversContainer, Action_.resume k ∉ x.Function) →
      ∀ p, c.Send e = some p → ∀ q ∈ p.2.2, q.1 ≠ k) ∧
    ((∀ x ∈ c.ReceiversContainer, ∀ a ∈ x.Function, a.isModify = true) →
      c.Send e = some (c, (expectedRun e c.ReceiversContainer).2,
        (expectedRun e c.ReceiversContainer).1)) := by
  refine ⟨?_, ?_, fun hpure => Send_pure c e hW hpure⟩
  · intro p h
    obtain ⟨c2, e2, t, hb, rfl⟩ := Send_some_elim hW h
    exact sendLoop_sorted c.ReceiversContainer.length 0
      { c with State := EventState_.Sending } e c2 e2 t hb hsorted
  · intro k hp hnr p h
    obtain ⟨c2, e2, t, hb, rfl⟩ := Send_some_elim hW h
    exact sendLoop_paused k c.ReceiversContainer.length 0
      { c with State := EventState_.Sending } e c2 e2 t hb hp hnr

/-- A concrete channel over Nat events used to instantiate the dispatch
claims: entry 1 active and mutating the event, entry 2 paused, entry 3
active. -/
def wChanA : Event_ Nat :=
  { State := EventState_.Waiting, NextReceiverIndex := 4,
    ReceiversContainer :=
      [ { State := ReceiverState_.Active, Index := 1,
          Function := [Action_.modify (fun v => v + 10)] },
        { State := ReceiverState_.Paused, Index := 2, Function := [] },
        { State := ReceiverState_.Active, Index := 3, Function := [] } ] }

/-- Witness for claim C1: the static conjunct evaluated on wChanA with event
5 gives exactly the expectedRun dispatch. -/
theorem send_dispatch_order_activity_event_witness :
    Event_.Send wChanA 5 = some (wChanA,
      (expectedRun 5 wChanA.ReceiversContainer).2,
      (expectedRun 5 wChanA.ReceiversContainer).1) :=
  (send_dispatch_order_activity_event wChanA 5 rfl (by decide)).2.2
    (by
      intro x hx a ha
      fin_cases hx <;> simp_all [Action_.isModify])

/-- Claim C2: if the receiver invoked at position j of a dispatch has the
identity k and every entry with identity k carries an Interrupt call in its
callback, then the invocation log of that Send call ends exactly at position
j: the interrupting receiver and all receivers before it ran, and no receiver
after it is invoked, because Interrupt sets the state to Interrupted and the
loop observes that at the start of its next iteration step. -/
theorem interrupt_stops_remaining_receivers {E : Type} (k : Nat) (c : Event_ E)
    (e : E)
    (hint : ∀ x ∈ c.ReceiversContainer, x.Index = k → Action_.interrupt ∈ x.Function)
    (p : Event_ E × E × List (Nat × E)) (h : c.Send e = some p)
    (j : Nat) (v : E) (hj : p.2.2[j]? = some (k, v)) :
    p.2.2.length = j + 1 := by
  by_cases hW : c.State = EventState_.Waiting
  · obtain ⟨c2, e2, t, hb, rfl⟩ := Send_some_elim hW h
    exact sendLoop_interrupt_len k c.ReceiversContainer.length 0
      { c with State := EventState_.Sending } e c2 e2 t hb hint j v hj
  · rw [Send_not_waiting c e hW, Option.some_inj] at h
    rw [← h] at hj
    simp at hj

/-- A concrete channel whose first receiver interrupts the dispatch; the
second receiver must never run. -/
def wChanB : Event_ Nat :=
  { State := EventState_.Waiting, NextReceiverIndex := 3,
    ReceiversContainer :=
      [ { State := ReceiverState_.Active, Index := 1, Function := [Action_.interrupt] },
        { State := ReceiverState_.Active, Index := 2, Function := [] } ] }

/-- Witness for claim C2: on wChanB the invocation log of Send stops right
after the interrupting receiver at position 0. -/
theorem interrupt_stops_remaining_receivers_witness :
    (((Event_.Send wChanB 0).getD (wChanB, 0, [])).2.2).length = 0 + 1 :=
  interrupt_stops_remaining_receivers 1 wChanB 0
    (by
      intro x hx hk
      fin_cases hx
      · exact List.mem_cons_self _ _
      · exact absurd hk (by decide))
    ((Event_.Send wChanB 0).getD (wChanB, 0, [])) rfl 0 0 rfl

/-- The failing input of claim C3: the first receiver removes the second
mid-dispatch, nothing interrupts, so the loop, whose end iterator was
computed before the erasure, dereferences a vacated position. -/
def wChanC : Event_ Nat :=
  { State := EventState_.Waiting, NextReceiverIndex := 3,
    ReceiversContainer :=
      [ { State := ReceiverState_.Active, Index := 1, Function := [Action_.remove 2] },
        { State := ReceiverState_.Active, Index := 2, Function := [] } ] }

/-- Claim C3: the claim asserts that a mid-dispatch erasure leaves the
iteration well defined.  On the failing input wChanC the embedded dispatch,
which mirrors the range-based for of the source with its end iterator frozen
at loop entry, reaches the vacated final position after the erasure and
performs an invalidated access, modelled as the result none.  In the C++
source this is a read of a destroyed vector element, undefined behavior, so
the code contradicts the specified live-list safety. -/
theorem send_remove_mid_dispatch_invalidates : Event_.Send wChanC 0 = none := rfl

/-- Claim C4: every top-level Send that passes the re-entrancy guard resets
the state to Idle (Waiting) on return, whether the loop completed or was
broken by Interrupt, and along every sequence of top-level operations started
from the initial channel the state is Waiting between operations; Interrupted
is visible only inside a Send call. -/
theorem send_and_ops_return_idle {E : Type} :
    (∀ (c : Event_ E) (e : E) (p : Event_ E × E × List (Nat × E)),
      c.State = EventState_.Waiting → c.Send e = some p →
        p.1.State = EventState_.Waiting) ∧
    (∀ (ops : List (Op E)) (p : Event_ E × List Nat),
      runOps (initialChannel E) ops = some p → p.1.State = EventState_.Waiting) := by
  constructor
  · intro c e p hW h
    exact Send_state_final hW h
  · intro ops p h
    exact runOps_waiting ops (initialChannel E) p h rfl

/-- A sequence of top-level operations exercising registration, dispatch,
interruption outside dispatch, pausing and removal. -/
def wOpsA : List (Op Nat) :=
  [Op.receive [Action_.interrupt], Op.receive [], Op.send 7, Op.pause 2,
    Op.send 1, Op.remove 1, Op.send 2]

/-- Witness for claim C4: both conjuncts applied at concrete inputs; the
state is Waiting after a dispatch of wChanB and after the whole operation
sequence wOpsA. -/
theorem send_and_ops_return_idle_witness :
    ((Event_.Send wChanB 0).getD (wChanB, 0, [])).1.State = EventState_.Waiting ∧
    ((runOps (initialChannel Nat) wOpsA).getD
      (initialChannel Nat, [])).1.State = EventState_.Waiting :=
  ⟨send_and_ops_return_idle.1 wChanB 0 _ rfl rfl,
    send_and_ops_return_idle.2 wOpsA _ rfl⟩

/-- Claim C5: a Send issued while the state is not Waiting fails the
re-entrancy assertion (a no-op outside MSVC debug builds) and returns at
once: no receiver is invoked (empty invocation log) and the whole channel
value, receiver list and next identity included, is returned unchanged, as is
the event. -/
theorem send_reentrancy_guard_noop {E : Type} (c : Event_ E) (e : E)
    (h : c.State ≠ EventState_.Waiting) : c.Send e = some (c, e, []) :=
  Send_not_waiting c e h

/-- A channel caught in the middle of a dispatch. -/
def wChanD : Event_ Nat :=
  { State := EventState_.Sending, NextReceiverIndex := 2,
    ReceiversContainer :=
      [ { State := ReceiverState_.Active, Index := 1, Function := [] } ] }

/-- Witness for claim C5: a re-entrant Send on wChanD returns it unchanged
with an empty log. -/
theorem send_reentrancy_guard_noop_witness :
    Event_.Send wChanD 9 = some (wChanD, 9, []) :=
  send_reentrancy_guard_noop wChanD 9 (by decide)

/-- Counterexample to claim C6 as stated: NextReceiverIndex is a size_t, so
its post-increment wraps modulo 2 to the 64th; the sequence of 2 to the 64th
registrations from the initial channel is a defined execution of the source
(each appends an entry and increments the counter), and its last
registration is assigned the identity 0, which the claim says is never
assigned (the identities of that run are also not strictly increasing, and
one more registration would reuse identity 1). -/
theorem receive_wraps_and_reassigns_zero :
    0 ∈ ((runOps (initialChannel Nat)
      (List.replicate sizeTCard (Op.receive []))).getD (initialChannel Nat, [])).2 := by
  obtain ⟨cE, hE⟩ := runOps_replicate_receive sizeTCard (initialChannel Nat)
    (by decide)
  rw [hE]
  dsimp only [Option.getD]
  exact zero_mem_idsFrom sizeTCard 1 (by decide) (by decide)
    (Nat.sub_lt sizeTCard_pos (by decide))

/-- Claim C6 as amended: Receive always succeeds with no precondition: it
appends exactly one Active entry carrying the current next identity and
increments that identity with the size_t wrap (modulo 2 to the 64th); the
returned handle is bound to the new entry identity whenever the counter is
in the size_t range, which every reachable channel satisfies; and along
every sequence of top-level operations from the initial channel that
contains fewer than 2 to the 64th registrations (so the counter never wraps)
the identities assigned are strictly increasing, pairwise distinct, at least
1, and never reused even after a removal. -/
theorem receive_assigns_fresh_increasing_ids {E : Type} :
    (∀ (c : Event_ E) (f : List (Action_ E)),
      (c.Receive f).1.ReceiversContainer = c.ReceiversContainer ++
        [{ State := ReceiverState_.Active, Index := c.NextReceiverIndex,
           Function := f }] ∧
      (c.Receive f).1.NextReceiverIndex = (c.NextReceiverIndex + 1) % sizeTCard ∧
      (c.NextReceiverIndex < sizeTCard →
        (c.Receive f).2.ReceiverIndex = c.NextReceiverIndex)) ∧
    (∀ (ops : List (Op E)) (p : Event_ E × List Nat),
      runOps (initialChannel E) ops = some p →
      receiveCount ops < sizeTCard →
        p.2.Pairwise (· < ·) ∧ ∀ x ∈ p.2, 1 ≤ x) := by
  constructor
  · intro c f
    exact ⟨rfl, rfl, fun h => receive_handle_eq c f h⟩
  · intro ops p h hcount
    obtain ⟨hb, hp⟩ := runOps_ids_bounded ops (initialChannel E) p h (by
      show 1 + receiveCount ops ≤ sizeTCard
      omega)
    exact ⟨hp, fun x hx => (hb x hx).1⟩

/-- A sequence of registrations with a removal in between: the removed
identity 1 must not be reassigned to the third registration. -/
def wOpsB : List (Op Nat) :=
  [Op.receive [], Op.receive [], Op.remove 1, Op.receive []]

/-- Witness for the amended claim C6: along wOpsB (three registrations, far
below the wrap bound) the assigned identities are strictly increasing and at
least 1, and the very first registration of the initial channel is bound to
identity 1. -/
theorem receive_assigns_fresh_increasing_ids_witness :
    (((runOps (initialChannel Nat) wOpsB).getD
        (initialChannel Nat, [])).2).Pairwise (· < ·) ∧
    (∀ x ∈ ((runOps (initialChannel Nat) wOpsB).getD (initialChannel Nat, [])).2,
      1 ≤ x) ∧
    (Event_.Receive (initialChannel Nat) []).2.ReceiverIndex = 1 :=
  ⟨(receive_assigns_fresh_increasing_ids.2 wOpsB
      ((runOps (initialChannel Nat) wOpsB).getD (initialChannel Nat, [])) rfl
      (by decide)).1,
   (receive_assigns_fresh_increasing_ids.2 wOpsB
      ((runOps (initialChannel Nat) wOpsB).getD (initialChannel Nat, [])) rfl
      (by decide)).2,
   (receive_assigns_fresh_increasing_ids.1 (initialChannel Nat) []).2.2
      (by decide)⟩

/-- Claim C7: on a handle bound to the unique entry carrying its identity,
Remove erases exactly that entry from the receiver list and unbinds the
handle (bound identity 0); any Send on a channel whose entries do not carry
that identity, in particular the channel just produced, never invokes that
identity; and a second Remove through the now unbound handle, on a channel
whose entries all have nonzero identities, changes neither the handle nor
the channel. -/
theorem remove_erases_entry_and_unbinds {E : Type} (s : Subscription_)
    (c : Event_ E) (l1 l2 : List (ReceiverData_ E)) (r : ReceiverData_ E)
    (hc : c.ReceiversContainer = l1 ++ r :: l2)
    (hk : r.Index = s.ReceiverIndex)
    (h1 : ∀ x ∈ l1, x.Index ≠ s.ReceiverIndex)
    (h2 : ∀ x ∈ l2, x.Index ≠ s.ReceiverIndex)
    (h0 : ∀ x ∈ c.ReceiversContainer, x.Index ≠ 0) :
    Subscription_.Remove s c = (⟨0⟩, { c with ReceiversContainer := l1 ++ l2 }) ∧
    (∀ (d : Event_ E) (e : E) (p : Event_ E × E × List (Nat × E)),
      (∀ x ∈ d.ReceiversContainer, x.Index ≠ s.ReceiverIndex) →
      d.Send e = some p → ∀ q ∈ p.2.2, q.1 ≠ s.ReceiverIndex) ∧
    (∀ x ∈ (l1 ++ l2), x.Index ≠ s.ReceiverIndex) ∧
    Subscription_.Remove ⟨0⟩ { c with ReceiversContainer := l1 ++ l2 } =
      (⟨0⟩, { c with ReceiversContainer := l1 ++ l2 }) := by
  refine ⟨Remove_found hc hk h1, fun d e p hd h => Send_absent _ h hd, ?_, ?_⟩
  · intro x hx
    rcases List.mem_append.mp hx with hx1 | hx2
    · exact h1 x hx1
    · exact h2 x hx2
  · apply Remove_absent
    intro x hx
    have hx2 : x ∈ c.ReceiversContainer := by
      rw [hc]
      rcases List.mem_append.mp hx with hx1 | hx1
      · exact List.mem_append_left _ hx1
      · exact List.mem_append_right _ (List.mem_cons_of_mem r hx1)
    exact h0 x hx2

/-- The first concrete receiver entry for the removal claims. -/
def wRecA : ReceiverData_ Nat :=
  { State := ReceiverState_.Active, Index := 1, Function := [] }

/-- The second concrete receiver entry for the removal claims. -/
def wRecB : ReceiverData_ Nat :=
  { State := ReceiverState_.Active, Index := 2, Function := [] }

/-- A two-receiver channel for the removal claims. -/
def wChanE : Event_ Nat :=
  { State := EventState_.Waiting, NextReceiverIndex := 3,
    ReceiversContainer := [wRecA, wRecB] }

/-- Witness for claim C7: removing entry 1 of wChanE unbinds the handle and
erases exactly that entry, and a second Remove through the unbound handle
changes nothing. -/
theorem remove_erases_entry_and_unbinds_witness :
    Subscription_.Remove ⟨1⟩ wChanE =
      (⟨0⟩, { wChanE with ReceiversContainer := [] ++ [wRecB] }) ∧
    Subscription_.Remove ⟨0⟩ { wChanE with ReceiversContainer := [] ++ [wRecB] } =
      (⟨0⟩, { wChanE with ReceiversContainer := [] ++ [wRecB] }) :=
  ⟨(remove_erases_entry_and_unbinds ⟨1⟩ wChanE [] [wRecB] wRecA rfl rfl
      (by simp) (by decide) (by decide)).1,
   (remove_erases_entry_and_unbinds ⟨1⟩ wChanE [] [wRecB] wRecA rfl rfl
      (by simp) (by decide) (by decide)).2.2.2⟩

theorem Event_ext {E : Type} {a b : Event_ E} (h1 : a.State = b.State)
    (h2 : a.NextReceiverIndex = b.NextReceiverIndex)
    (h3 : a.ReceiversContainer = b.ReceiversContainer) : a = b := by
  cases a
  cases b
  dsimp only at h1 h2 h3
  rw [h1, h2, h3]

theorem ReceiverData_setActive_self {E : Type} {r : ReceiverData_ E}
    (h : r.State = ReceiverState_.Active) :
    { r with State := ReceiverState_.Active } = r := by
  cases r
  rw [← h]

/-- A channel on which the literal reading of claim C8 fails: entry 2 is
Active and bound to the handle, but the callback of entry 1 resumes entry 2
during the dispatch. -/
def wChanF : Event_ Nat :=
  { State := EventState_.Waiting, NextReceiverIndex := 3,
    ReceiversContainer :=
      [ { State := ReceiverState_.Active, Index := 1, Function := [Action_.resume 2] },
        { State := ReceiverState_.Active, Index := 2, Function := [] } ] }

/-- Counterexample to claim C8 as stated: on wChanF the handle bound to the
Active entry 2 is paused and Send is called immediately, yet entry 2 is
invoked in that dispatch (the log is [1, 2]), because the receiver invoked
before it resumed it mid-dispatch. -/
theorem pause_then_send_can_still_invoke :
    (Event_.Send (Subscription_.Pause ⟨2⟩ wChanF) 0).map
      (fun p => p.2.2.map Prod.fst) = some [1, 2] := rfl

/-- Claim C8 as amended: for a handle bound to an Active entry that is the
only entry with its identity, and provided every callback of the channel
only mutates the event (no receiver pauses, resumes, removes or interrupts
during the dispatches), Pause followed by Send yields a completed dispatch
that does not invoke that entry, leaves the channel as paused, and Resume
then restores the channel exactly, after which Send yields a completed
dispatch invoking that entry exactly once. -/
theorem pause_resume_toggle_observed_by_send {E : Type} (s : Subscription_)
    (c : Event_ E) (e e2 : E) (l1 l2 : List (ReceiverData_ E))
    (r : ReceiverData_ E)
    (hW : c.State = EventState_.Waiting)
    (hc : c.ReceiversContainer = l1 ++ r :: l2)
    (hk : r.Index = s.ReceiverIndex)
    (hA : r.State = ReceiverState_.Active)
    (h1 : ∀ x ∈ l1, x.Index ≠ s.ReceiverIndex)
    (h2 : ∀ x ∈ l2, x.Index ≠ s.ReceiverIndex)
    (hpure : ∀ x ∈ c.ReceiversContainer, ∀ a ∈ x.Function, a.isModify = true) :
    (Subscription_.Pause s c).Send e = some (Subscription_.Pause s c,
        (expectedRun e (Subscription_.Pause s c).ReceiversContainer).2,
        (expectedRun e (Subscription_.Pause s c).ReceiversContainer).1) ∧
    (expectedRun e (Subscription_.Pause s c).ReceiversContainer).1.countP
        (fun q => q.1 == s.ReceiverIndex) = 0 ∧
    Subscription_.Resume s (Subscription_.Pause s c) = c ∧
    c.Send e2 = some (c, (expectedRun e2 c.ReceiversContainer).2,
        (expectedRun e2 c.ReceiversContainer).1) ∧
    (expectedRun e2 c.ReceiversContainer).1.countP
        (fun q => q.1 == s.ReceiverIndex) = 1 := by
  have hkP : ({ r with State := ReceiverState_.Paused } : ReceiverData_ E).Index =
      s.ReceiverIndex := hk
  have hcont : (Subscription_.Pause s c).ReceiversContainer =
      l1 ++ { r with State := ReceiverState_.Paused } :: l2 := by
    show ForThis s.ReceiverIndex (fun x => { x with State := ReceiverState_.Paused })
      c.ReceiversContainer = _
    rw [hc, ForThis_decomp _ h1 hk]
  have hstp : (Subscription_.Pause s c).State = EventState_.Waiting := hW
  have hpureL : ∀ x ∈ l1 ++ r :: l2, ∀ a ∈ x.Function, a.isModify = true := by
    rw [← hc]
    exact hpure
  have hpure2 : ∀ x ∈ (Subscription_.Pause s c).ReceiversContainer,
      ∀ a ∈ x.Function, a.isModify = true := by
    intro x hx
    rw [hcont] at hx
    rcases List.mem_append.mp hx with hx1 | hx1
    · exact hpureL x (List.mem_append_left _ hx1)
    · rcases List.mem_cons.mp hx1 with hxe | hx2
      · rw [hxe]
        exact hpureL r (List.mem_append_right _ (List.mem_cons_self r l2))
      · exact hpureL x (List.mem_append_right _ (List.mem_cons_of_mem r hx2))
  have hcont2 : (Subscription_.Resume s (Subscription_.Pause s c)).ReceiversContainer =
      l1 ++ r :: l2 := by
    show ForThis s.ReceiverIndex (fun x => { x with State := ReceiverState_.Active })
      (Subscription_.Pause s c).ReceiversContainer = _
    rw [hcont, ForThis_decomp _ h1 hkP]
    dsimp only
    rw [ReceiverData_setActive_self hA]
  have hres : Subscription_.Resume s (Subscription_.Pause s c) = c :=
    Event_ext rfl rfl (hcont2.trans hc.symm)
  refine ⟨Send_pure _ e hstp hpure2, ?_, hres, Send_pure c e2 hW hpure, ?_⟩
  · rw [hcont, expectedRun_countP_one s.ReceiverIndex e h1 h2 hkP]
    rw [if_neg (fun hcc => ReceiverState_.noConfusion hcc)]
  · rw [hc, expectedRun_countP_one s.ReceiverIndex e2 h1 h2 hk, if_pos hA]

/-- A receiver that mutates the event, used by the toggle witness. -/
def wRecC : ReceiverData_ Nat :=
  { State := ReceiverState_.Active, Index := 1,
    Function := [Action_.modify (fun v => v + 1)] }

/-- The receiver bound to the toggled handle. -/
def wRecD : ReceiverData_ Nat :=
  { State := ReceiverState_.Active, Index := 2, Function := [] }

/-- A two-receiver channel with event-only callbacks for the toggle claim. -/
def wChanG : Event_ Nat :=
  { State := EventState_.Waiting, NextReceiverIndex := 3,
    ReceiversContainer := [wRecC, wRecD] }

/-- Witness for the amended claim C8: on wChanG, pausing entry 2 makes the
next dispatch skip it (count 0) and resuming makes the following dispatch
invoke it exactly once (count 1). -/
theorem pause_resume_toggle_observed_by_send_witness :
    (Subscription_.Pause ⟨2⟩ wChanG).Send 0 = some (Subscription_.Pause ⟨2⟩ wChanG,
        (expectedRun 0 (Subscription_.Pause ⟨2⟩ wChanG).ReceiversContainer).2,
        (expectedRun 0 (Subscription_.Pause ⟨2⟩ wChanG).ReceiversContainer).1) ∧
    (expectedRun 0 (Subscription_.Pause ⟨2⟩ wChanG).ReceiversContainer).1.countP
        (fun q => q.1 == 2) = 0 ∧
    (expectedRun 5 wChanG.ReceiversContainer).1.countP (fun q => q.1 == 2) = 1 :=
  ⟨(pause_resume_toggle_observed_by_send ⟨2⟩ wChanG 0 5 [wRecC] [] wRecD rfl rfl
      rfl rfl (by decide) (by simp)
      (by intro x hx a ha; fin_cases hx <;> simp_all [wRecC, wRecD, Action_.isModify])).1,
   (pause_resume_toggle_observed_by_send ⟨2⟩ wChanG 0 5 [wRecC] [] wRecD rfl rfl
      rfl rfl (by decide) (by simp)
      (by intro x hx a ha; fin_cases hx <;> simp_all [wRecC, wRecD, Action_.isModify])).2.1,
   (pause_resume_toggle_observed_by_send ⟨2⟩ wChanG 0 5 [wRecC] [] wRecD rfl rfl
      rfl rfl (by decide) (by simp)
      (by intro x hx a ha; fin_cases hx <;> simp_all [wRecC, wRecD, Action_.isModify])).2.2.2.2⟩

/-- Claim C9: IsValid returns true exactly when the bound identity is
nonzero: false on the default (unbound) handle; true on the handle returned
by Receive whenever the next identity is positive (which every reachable
channel satisfies); false right after a successful Remove through the
handle; and a Remove that finds no entry leaves the handle unchanged, so
validity is unchanged.  IsValid itself is a pure function of the handle and
touches no state. -/
theorem isvalid_iff_bound_nonzero {E : Type} :
    Subscription_.IsValid ⟨0⟩ = false ∧
    (∀ (c : Event_ E) (f : List (Action_ E)), 0 < c.NextReceiverIndex →
      c.NextReceiverIndex < sizeTCard →
      Subscription_.IsValid (c.Receive f).2 = true) ∧
    (∀ (c : Event_ E) (s : Subscription_),
      (∃ x ∈ c.ReceiversContainer, x.Index = s.ReceiverIndex) →
      Subscription_.IsValid ((Subscription_.Remove s c).1) = false) ∧
    (∀ (c : Event_ E) (s : Subscription_),
      (∀ x ∈ c.ReceiversContainer, x.Index ≠ s.ReceiverIndex) →
      (Subscription_.Remove s c).1 = s) := by
  refine ⟨rfl, ?_, ?_, ?_⟩
  · intro c f hpos hlt
    have hne : c.NextReceiverIndex ≠ 0 := by omega
    rw [show (c.Receive f).2 = (⟨(c.Receive f).2.ReceiverIndex⟩ : Subscription_)
      from rfl, receive_handle_eq c f hlt]
    simp [Subscription_.IsValid, hne]
  · rintro c s ⟨x, hx, hxi⟩
    rw [Subscription_.Remove, if_pos (any_true_of_mem hx hxi)]
    rfl
  · intro c s ha
    rw [Remove_absent ha]

/-- Witness for claim C9: the handle of the first registration is valid, the
handle becomes invalid after its entry is removed, and a Remove through an
unbound identity leaves the handle unchanged. -/
theorem isvalid_iff_bound_nonzero_witness :
    Subscription_.IsValid (Event_.Receive (initialChannel Nat) []).2 = true ∧
    Subscription_.IsValid ((Subscription_.Remove ⟨1⟩ wChanE).1) = false ∧
    (Subscription_.Remove ⟨5⟩ wChanE).1 = ⟨5⟩ :=
  ⟨(isvalid_iff_bound_nonzero (E := Nat)).2.1 (initialChannel Nat) [] (by decide)
     (by decide),
   (isvalid_iff_bound_nonzero (E := Nat)).2.2.1 wChanE ⟨1⟩
     ⟨wRecA, List.mem_cons_self _ _, rfl⟩,
   (isvalid_iff_bound_nonzero (E := Nat)).2.2.2 wChanE ⟨5⟩ (by decide)⟩

/-- Claim C10: a handle is valid solely by its stored identity, never by
whether the entry still exists: a copy of a handle whose entry was removed
through another copy still holds the nonzero identity and reports
IsValid true, and Pause or Resume issued through such a stale copy find no
matching entry and leave every entry of the channel unchanged. -/
theorem stale_handle_copy_valid_and_noop {E : Type} (s : Subscription_)
    (c : Event_ E) (l1 l2 : List (ReceiverData_ E)) (r : ReceiverData_ E)
    (hc : c.ReceiversContainer = l1 ++ r :: l2)
    (hk : r.Index = s.ReceiverIndex)
    (h0 : s.ReceiverIndex ≠ 0)
    (h1 : ∀ x ∈ l1, x.Index ≠ s.ReceiverIndex)
    (h2 : ∀ x ∈ l2, x.Index ≠ s.ReceiverIndex) :
    Subscription_.IsValid s = true ∧
    (Subscription_.Remove s c).2.ReceiversContainer = l1 ++ l2 ∧
    Subscription_.Pause s (Subscription_.Remove s c).2 =
      (Subscription_.Remove s c).2 ∧
    Subscription_.Resume s (Subscription_.Remove s c).2 =
      (Subscription_.Remove s c).2 := by
  have hrem := Remove_found hc hk h1
  have hcont : (Subscription_.Remove s c).2.ReceiversContainer = l1 ++ l2 := by
    rw [hrem]
  have habs : ∀ x ∈ (Subscription_.Remove s c).2.ReceiversContainer,
      x.Index ≠ s.ReceiverIndex := by
    intro x hx
    rw [hcont] at hx
    rcases List.mem_append.mp hx with hx1 | hx1
    · exact h1 x hx1
    · exact h2 x hx1
  refine ⟨by simp [Subscription_.IsValid, h0], hcont, ?_, ?_⟩
  · rw [Subscription_.Pause, ForThis_not_mem _ habs]
  · rw [Subscription_.Resume, ForThis_not_mem _ habs]

/-- Witness for claim C10: after entry 1 of wChanE is removed through one
copy of the handle, the identity-1 handle value is still valid and pausing
or resuming through it leaves the channel unchanged. -/
theorem stale_handle_copy_valid_and_noop_witness :
    Subscription_.IsValid ⟨1⟩ = true ∧
    Subscription_.Pause ⟨1⟩ (Subscription_.Remove ⟨1⟩ wChanE).2 =
      (Subscription_.Remove ⟨1⟩ wChanE).2 ∧
    Subscription_.Resume ⟨1⟩ (Subscription_.Remove ⟨1⟩ wChanE).2 =
      (Subscription_.Remove ⟨1⟩ wChanE).2 :=
  ⟨(stale_handle_copy_valid_and_noop ⟨1⟩ wChanE [] [wRecB] wRecA rfl rfl
      (by decide) (by simp) (by decide)).1,
   (stale_handle_copy_valid_and_noop ⟨1⟩ wChanE [] [wRecB] wRecA rfl rfl
      (by decide) (by simp) (by decide)).2.2.1,
   (stale_handle_copy_valid_and_noop ⟨1⟩ wChanE [] [wRecB] wRecA rfl rfl
      (by decide) (by simp) (by decide)).2.2.2⟩
